import Mathlib

/-!
Verification of the graph-construction and recursive layout engine of the
family-tree renderer (familytree.js): duplicate-record merging, id linking
with placeholder synthesis, root selection, recursive width computation,
placement, and connector-line geometry, as a shallow embedding.

Linked persons are represented by their ids: after the merge every id is
unique, so the object links produced by `linkPeople` are faithfully
modelled by id references, and a resolved partner or child link carries
exactly the id string that the unlinked record held.
-/

namespace FamilyTree

/-- An unlinked person record as parsed from one source JSON entry.
`none` models an absent field. -/
structure UPerson where
  name : String
  id : String
  partner : Option String := none
  children : Option (List String) := none
  deriving DecidableEq, Repr

/-- JS truthiness of an optional string field: an absent field and the
empty string are falsy, every other string is truthy. -/
def strTruthy : Option String → Bool
  | none => false
  | some s => !(s == "")

/-- Merge a later duplicate record `p` into the canonical record `d`
(the body of the `fromJSON` filter): fill a missing partner, union the
children lists appending unseen ids in first-seen order, and adopt a
missing children field wholesale. -/
def mergeInto (d p : UPerson) : UPerson :=
  { d with
    partner := if strTruthy d.partner then d.partner else p.partner
    children :=
      match d.children, p.children with
      | some dc, some pc => some (pc.foldl (fun acc c => if acc.contains c then acc else acc ++ [c]) dc)
      | some dc, none => some dc
      | none, pc => pc }

/-- One step of the duplicate merge: fold record `p` into the first
record of `acc` that has the same id, or append `p` as a new canonical
record if its id is unseen. -/
def mergeFirst : List UPerson → UPerson → List UPerson
  | [], p => [p]
  | d :: rest, p => if d.id == p.id then mergeInto d p :: rest else d :: mergeFirst rest p

/-- The duplicate merge of `fromJSON`: scan all records in encounter
order; the first occurrence of each id is canonical and every later
occurrence of the same id is merged into it. -/
def mergePeople (people : List UPerson) : List UPerson :=
  people.foldl mergeFirst []

/-- State of the linking pass: the working person list (which grows when
placeholders are synthesized) and the warnings emitted so far. -/
structure LinkState where
  people : List UPerson
  warnings : List String
  deriving DecidableEq, Repr

/-- Back-inference for a synthesized placeholder: the id of the first
known record whose truthy partner field points at the missing id. -/
def backInfer (people : List UPerson) (id : String) : Option String :=
  (people.find? (fun p => strTruthy p.partner && p.partner.getD "" == id)).map (fun p => p.id)

/-- `findPerson` of familytree.js in id-representation: when the id is
present the state is unchanged and the reference resolves to that
person; otherwise a warning is emitted and a placeholder person is
appended whose name equals the missing id, whose children list is empty
and whose partner is back-inferred from the known records. -/
def findPerson (st : LinkState) (id : String) : LinkState :=
  match st.people.find? (fun p => p.id == id) with
  | some _ => st
  | none =>
      { people := st.people ++ [{ name := id, id := id, partner := backInfer st.people id, children := some [] }]
        warnings := st.warnings ++ ["Person not found with ID: " ++ id] }

/-- The children field a person carries after it has been processed by
`linkPeople`: the resolved children links carry the same ids, and an
absent field has been replaced by the freshly assigned empty array. -/
def childDefault (p : UPerson) : UPerson :=
  { p with children := some (p.children.getD []) }

/-- Process the person at index `i` of the working list, as one
iteration of the `linkPeople` loop: resolve its truthy partner
reference, then each of its children references in order (each
resolution may append a placeholder), and finally store the resolved
children list (the same ids) on the person. -/
def processAt (st : LinkState) (i : Nat) : LinkState :=
  match st.people[i]? with
  | none => st
  | some person =>
      let st1 := if strTruthy person.partner then findPerson st (person.partner.getD "") else st
      let st2 := (person.children.getD []).foldl findPerson st1
      { st2 with people := st2.people.set i (childDefault person) }

/-- The `for (const person of people)` loop of `linkPeople`: the JS
array iterator visits increasing indices and re-checks the current
length each step, so persons appended during the loop are processed
too. The fuel bounds the number of iterations. -/
def linkLoop : Nat → Nat → LinkState → LinkState
  | 0, _, st => st
  | Nat.succ fuel, i, st =>
      if i < st.people.length then linkLoop fuel (i + 1) (processAt st i) else st

/-- Fuel that suffices for the linking loop: the loop runs once per
final list entry, and at most one placeholder is appended per reference
held by an original person (placeholders themselves hold an empty
children list and a partner that is already present). -/
def linkFuel (people : List UPerson) : Nat :=
  people.length + people.foldl (fun a p => a + 1 + (p.children.getD []).length) 0

/-- `linkPeople` of familytree.js: resolve every id reference of every
person, synthesizing placeholders for missing ids. -/
def linkPeople (people : List UPerson) : LinkState :=
  linkLoop (linkFuel people) 0 { people := people, warnings := [] }

/-- `fromJSON` after parsing: concatenate the record collections of all
sources in list order, merge duplicates, then link. -/
def fromJSONModel (sources : List (List UPerson)) : LinkState :=
  linkPeople (mergePeople sources.flatten)

/-- The re-root lookup of `layOut`: the first person of the set whose
children list contains the candidate becomes the root, otherwise the
candidate itself does. -/
def findRoot (people : List UPerson) (root : UPerson) : UPerson :=
  match people.find? (fun p => (p.children.getD []).any (fun c => c == root.id)) with
  | some p => p
  | none => root

/-- The partner relation of a linked graph is symmetric: whenever a
person holds a truthy partner link to the id of a person in the set,
that person links back. -/
def partnerSymmetric (l : List UPerson) : Prop :=
  ∀ A ∈ l, ∀ B ∈ l, strTruthy A.partner = true → A.partner = some B.id → B.partner = some A.id

/-- No two records of the list point their truthy partner field at the
same target. -/
def partnerInjective (l : List UPerson) : Prop :=
  ∀ p ∈ l, ∀ q ∈ l, strTruthy p.partner = true → p.partner = q.partner → p.id = q.id

/-- Every reference held by a record of the list resolves within the
list. -/
def noDang (l : List UPerson) : Prop :=
  ∀ p ∈ l, (strTruthy p.partner = true → ∃ q ∈ l, q.id = p.partner.getD "") ∧
    (∀ c ∈ p.children.getD [], ∃ q ∈ l, q.id = c)

/-! ## Layout engine

The layout pass works on the linked graph rooted at the chosen person.
A person's subtree is modelled by `PTree`: the person's own box
dimensions, the partner (the partner's id, box dimensions, and the
partner's own children links, which the layout code never follows), and
the person's own children subtrees. Coordinates and box dimensions are
rationals, so the halving performed by the placement and line geometry
is exact. -/

/-- `PERSON_SPACE` of familytree.js, the horizontal spacing constant. -/
def PERSON_SPACE : ℚ := 20

/-- `GEN_SPACE` of familytree.js, the vertical generation spacing. -/
def GEN_SPACE : ℚ := 55

/-- A person's subtree as seen by the layout pass: id, own box width and
height, the partner (id, box width, box height, and the partner's own
children subtrees, which `getWidth`, `show`, `place` and `draw` never
read), and the person's own children. `children` is `none` when the
field is absent; `linkPeople` always stores an array, but the width
code tests the field's truthiness, so the absent case is kept. -/
inductive PTree : Type where
  | mk (id : String) (boxW boxH : ℚ) (partner : Option (String × ℚ × ℚ × List PTree))
      (children : Option (List PTree))

/-- `getPartnerWidth`: the person's own box width alone, or both boxes
plus the spacing gap when partnered. -/
def getPartnerWidth : PTree → ℚ
  | .mk _ w _ none _ => w
  | .mk _ w _ (some (_, qw, _, _)) _ => w + PERSON_SPACE + qw

mutual

/-- `getWidth`: the width of a person's subtree, the larger of the
partner-pair width and the children-row width. -/
def getWidth (t : PTree) : ℚ :=
  max (getPartnerWidth t) (getChildrenWidth t)

/-- `getChildrenWidth`: `0` when the children field is absent (falsy);
otherwise the sum of the children's subtree widths plus
`(count - 1) * PERSON_SPACE` — note an empty array is truthy in JS, so
an empty children list yields `-PERSON_SPACE`. -/
def getChildrenWidth : PTree → ℚ
  | .mk _ _ _ _ none => 0
  | .mk _ _ _ _ (some l) => widthSum l + ((l.length : ℚ) - 1) * PERSON_SPACE

/-- The sum of the subtree widths of a list of children (the `reduce`
of `getChildrenWidth`). -/
def widthSum : List PTree → ℚ
  | [] => 0
  | c :: rest => getWidth c + widthSum rest

end

mutual

/-- `person.show` as the list of ids whose boxes are appended to the
DOM, in append order: the person's own box always; the partner's box
and the person's own children's subtrees only when partnered. -/
def showTree : PTree → List String
  | .mk i _ _ none _ => [i]
  | .mk i _ _ (some (qi, _, _, _)) none => [i, qi]
  | .mk i _ _ (some (qi, _, _, _)) (some l) => i :: qi :: showKids l

/-- The `for` loop of `person.show` over the person's own children. -/
def showKids : List PTree → List String
  | [] => []
  | c :: rest => showTree c ++ showKids rest

end

/-- The rectangle a box occupies after `move(div, x, y)`: the div's
top-left corner is at `(x, y)`. -/
structure Rect where
  top : ℚ
  bottom : ℚ
  left : ℚ
  right : ℚ
  deriving DecidableEq, Repr

/-- A box of width `w` and height `h` moved so that its top-left corner
is `(x, y)`. -/
def movedRect (w h x y : ℚ) : Rect :=
  { top := y, bottom := y + h, left := x, right := x + w }

/-- The placed form of a person's subtree: the person's own rectangle,
the partner's rectangle when the pair was placed, and the placed
children (empty when the person has no partner, since `place` only
descends under a partnered pair). -/
inductive Placed : Type where
  | mk (rect : Rect) (partnerRect : Option Rect) (children : List Placed)

/-- The person's own placed rectangle. -/
def Placed.rect : Placed → Rect
  | .mk r _ _ => r

/-- The partner's placed rectangle, when present. -/
def Placed.partnerRect : Placed → Option Rect
  | .mk _ pr _ => pr

/-- The placed children subtrees. -/
def Placed.children : Placed → List Placed
  | .mk _ _ cs => cs

mutual

/-- `person.place(x, y)`: the person's own box is placed at
`x + (getWidth - getPartnerWidth) / 2`; when partnered, the partner box
sits immediately right of it with a `PERSON_SPACE` gap and the children
are placed one generation down, starting at `x` when the children row
is wider than the partner pair and centered under the pair otherwise.
An unpartnered person's children are not placed. -/
def place : PTree → ℚ → ℚ → Placed
  | t@(.mk _ w h none _), x, y =>
      Placed.mk (movedRect w h (x + (getWidth t - getPartnerWidth t) / 2) y) none []
  | t@(.mk _ w h (some (_, qw, qh, _)) none), x, y =>
      let personLeft := x + (getWidth t - getPartnerWidth t) / 2
      Placed.mk (movedRect w h personLeft y)
        (some (movedRect qw qh (personLeft + w + PERSON_SPACE) y)) []
  | t@(.mk _ w h (some (_, qw, qh, _)) (some l)), x, y =>
      let personLeft := x + (getWidth t - getPartnerWidth t) / 2
      let left0 := if getPartnerWidth t < getChildrenWidth t then x
        else x + (getPartnerWidth t - getChildrenWidth t) / 2
      Placed.mk (movedRect w h personLeft y)
        (some (movedRect qw qh (personLeft + w + PERSON_SPACE) y))
        (placeKids l left0 (y + GEN_SPACE))

/-- The `for` loop of `person.place`: each child is placed at the
running `left`, which then advances by the child's width plus
`PERSON_SPACE`. -/
def placeKids : List PTree → ℚ → ℚ → List Placed
  | [], _, _ => []
  | c :: rest, left, y => place c left y :: placeKids rest (left + getWidth c + PERSON_SPACE) y

end

/-- A connector line segment. -/
structure Line where
  x1 : ℚ
  y1 : ℚ
  x2 : ℚ
  y2 : ℚ
  deriving DecidableEq, Repr

/-- `drawPartnerLine`: the horizontal line between the partner boxes at
the first box's vertical midpoint. -/
def drawPartnerLine (r1 r2 : Rect) : Line :=
  { x1 := r1.right, y1 := (r1.top + r1.bottom) / 2
    x2 := r2.left + 1, y2 := (r1.top + r1.bottom) / 2 }

/-- `drawPartnerToChildrenLine`: the vertical descent stub from the
midpoint between the partner boxes, starting at the partner-line height
and reaching half a generation down. -/
def drawPartnerToChildrenLine (r1 r2 : Rect) : Line :=
  { x1 := (r1.right + r2.left) / 2, y1 := (r1.top + r1.bottom) / 2
    x2 := (r1.right + r2.left) / 2, y2 := (r1.top + r1.bottom) / 2 + GEN_SPACE / 2 }

/-- `drawChildLine`: the vertical stub from a child box's top edge up to
the generation midline. -/
def drawChildLine (r : Rect) : Line :=
  { x1 := (r.left + r.right) / 2, y1 := r.top
    x2 := (r.left + r.right) / 2, y2 := (r.top + r.bottom - GEN_SPACE) / 2 }

/-- `drawOnlyChildLine`: the single vertical line from the partner
midpoint down to a lone child's top edge. -/
def drawOnlyChildLine (r1 r2 : Rect) : Line :=
  { x1 := (r1.right + r2.left) / 2, y1 := (r1.top + r1.bottom) / 2
    x2 := (r1.right + r2.left) / 2
    y2 := (r1.top + r1.bottom) / 2 + GEN_SPACE + (r1.top - r1.bottom) / 2 }

/-- `drawConnectChildrenLine`: the horizontal sibling-span line between
the first and last child's stub tops. -/
def drawConnectChildrenLine (r1 r2 : Rect) : Line :=
  { x1 := (r1.left + r1.right) / 2 - 1, y1 := (r1.top + r1.bottom - GEN_SPACE) / 2
    x2 := (r2.left + r2.right) / 2 + 1, y2 := (r1.top + r1.bottom - GEN_SPACE) / 2 }

/-- The rectangle of the last child iterated by the `draw` loop. -/
def lastRect (c : Placed) : List Placed → Rect
  | [] => c.rect
  | d :: ds => lastRect d ds

mutual

/-- `person.draw()` as the list of emitted lines, in emission order: a
person without a partner emits nothing; a partnered person emits the
partner line and, with more than one child, the descent stub, each
child's stub and recursive lines, and the sibling-span line between the
first and last child, or with exactly one child a single line to that
child. -/
def draw : Placed → List Line
  | .mk _ none _ => []
  | .mk r (some pr) [] => [drawPartnerLine r pr]
  | .mk r (some pr) [c] => drawPartnerLine r pr :: drawOnlyChildLine r pr :: draw c
  | .mk r (some pr) (c1 :: c2 :: rest) =>
      drawPartnerLine r pr :: drawPartnerToChildrenLine r pr ::
        (drawKids (c1 :: c2 :: rest) ++ [drawConnectChildrenLine c1.rect (lastRect c2 rest)])

/-- The `for` loop of `person.draw` over the children: each child's
stub followed by the child's own lines. -/
def drawKids : List Placed → List Line
  | [] => []
  | c :: rest => drawChildLine c.rect :: (draw c ++ drawKids rest)

end

mutual

/-- Replace the partner's own children links by the empty list,
everywhere in a subtree. The layout code never reads them, so this
scrubbing leaves `showTree`, the widths and `place` unchanged. -/
def scrubPartnerChildren : PTree → PTree
  | .mk i w h none none => .mk i w h none none
  | .mk i w h none (some l) => .mk i w h none (some (scrubKids l))
  | .mk i w h (some (qi, qw, qh, _)) none => .mk i w h (some (qi, qw, qh, [])) none
  | .mk i w h (some (qi, qw, qh, _)) (some l) =>
      .mk i w h (some (qi, qw, qh, [])) (some (scrubKids l))

/-- `scrubPartnerChildren` mapped over a children list. -/
def scrubKids : List PTree → List PTree
  | [] => []
  | c :: rest => scrubPartnerChildren c :: scrubKids rest

end

/-! ## Claims about the width pass -/

/-- Claim C3, counterexample: a person whose children field holds an
empty array (arrays are truthy in JS) gets children width
`(0 - 1) * PERSON_SPACE = -20`, not the `0` the claim states. -/
theorem c3_childrenWidth_empty_counterexample :
    getChildrenWidth (.mk "p" 50 10 none (some [])) ≠ 0 := by
  norm_num [getChildrenWidth, widthSum, PERSON_SPACE]

/-- Claim C3, amended: `getChildrenWidth` is `0` only when the children
field is absent; whenever the field is present it is the sum of the
children's widths plus `(count - 1) * PERSON_SPACE`, which for an empty
list is `-PERSON_SPACE` rather than `0`. -/
theorem c3_childrenWidth_amended :
    (∀ i w h pr, getChildrenWidth (.mk i w h pr none) = 0) ∧
    (∀ i w h pr cs, getChildrenWidth (.mk i w h pr (some cs)) =
      widthSum cs + ((cs.length : ℚ) - 1) * PERSON_SPACE) ∧
    (∀ i w h pr, getChildrenWidth (.mk i w h pr (some [])) = -PERSON_SPACE) := by
  refine ⟨fun i w h pr => by simp [getChildrenWidth],
    fun i w h pr cs => by simp [getChildrenWidth],
    fun i w h pr => by norm_num [getChildrenWidth, widthSum]⟩

/-- Claim C4, counterexample: an unpartnered person with one child of
subtree width 80 has children width 80, not 0, and subtree width 80
rather than its own box width 50. -/
theorem c4_unpartnered_counterexample :
    getChildrenWidth (.mk "a" 50 10 none (some [.mk "b" 80 10 none (some [])])) ≠ 0 ∧
    getWidth (.mk "a" 50 10 none (some [.mk "b" 80 10 none (some [])])) ≠ 50 := by
  constructor <;>
    norm_num [getWidth, getChildrenWidth, getPartnerWidth, widthSum, PERSON_SPACE]

/-- Claim C4, amended: `getChildrenWidth` does not consult the partner
link, so an unpartnered person's children still count toward its width:
`width(p) = max(ownBoxWidth(p), childrenWidth(p))`, which equals the own
box width only when the children width does not exceed it. What an
unpartnered person never gets is a rendered child generation: `show`
appends only its own box. -/
theorem c4_unpartnered_amended :
    ∀ i w h cs, getPartnerWidth (.mk i w h none cs) = w ∧
      getWidth (.mk i w h none cs) = max w (getChildrenWidth (.mk i w h none cs)) ∧
      showTree (.mk i w h none cs) = [i] := by
  intro i w h cs
  refine ⟨by simp [getPartnerWidth], by rw [getWidth, getPartnerWidth], ?_⟩
  cases cs <;> simp [showTree]

/-! ## Claims about the connector geometry -/

/-- Claim C9: for a placed partnered person with at least one child, the
first two lines `draw` emits are the horizontal partner line and the
vertical descent line (the stub when there are several children, the
only-child line when there is one), and the descent line starts at the
partner line's height: the connector is continuous at the partner
midpoint. -/
theorem c9_partner_line_meets_descent :
    ∀ r pr c cs, ∃ stub rest,
      draw (Placed.mk r (some pr) (c :: cs)) = drawPartnerLine r pr :: stub :: rest ∧
      stub.y1 = (drawPartnerLine r pr).y1 := by
  intro r pr c cs
  cases cs with
  | nil =>
      exact ⟨drawOnlyChildLine r pr, draw c, by simp [draw],
        by simp [drawOnlyChildLine, drawPartnerLine]⟩
  | cons c2 rest =>
      refine ⟨drawPartnerToChildrenLine r pr,
        drawKids (c :: c2 :: rest) ++ [drawConnectChildrenLine c.rect (lastRect c2 rest)],
        by simp [draw], by simp [drawPartnerToChildrenLine, drawPartnerLine]⟩

/-! ## Claims about root selection and reference resolution -/

/-- Claim C7: the effective root chosen on re-root is the first person
of the set whose own children list contains the candidate's id, and the
candidate itself when no person lists it — a single-level upward
lookup. -/
theorem c7_findRoot_single_level :
    ∀ (people : List UPerson) (root : UPerson),
      ((∀ p ∈ people, ((p.children.getD []).any (fun c => c == root.id)) = false) →
        findRoot people root = root) ∧
      (∀ l1 p l2, people = l1 ++ p :: l2 →
        (∀ q ∈ l1, ((q.children.getD []).any (fun c => c == root.id)) = false) →
        ((p.children.getD []).any (fun c => c == root.id)) = true →
        findRoot people root = p) := by
  intro people root
  constructor
  · intro hnone
    have h : people.find? (fun p => (p.children.getD []).any (fun c => c == root.id)) = none :=
      List.find?_eq_none.mpr (fun p hp => by simp [hnone p hp])
    simp [findRoot, h]
  · intro l1 p l2 hsplit hbefore hp
    have h1 : l1.find? (fun q => (q.children.getD []).any (fun c => c == root.id)) = none :=
      List.find?_eq_none.mpr (fun q hq => by simp [hbefore q hq])
    have h2 : (p :: l2).find? (fun q => (q.children.getD []).any (fun c => c == root.id)) =
        some p := List.find?_cons_of_pos l2 hp
    simp [findRoot, hsplit, List.find?_append, h1, h2]

/-- Witness for C7: with a set where the second person lists the
candidate `c` as a child, re-rooting from `c` selects that person. -/
theorem c7_findRoot_witness :
    findRoot [⟨"a", "a", none, some []⟩, ⟨"b", "b", none, some ["c"]⟩]
      ⟨"c", "c", none, some []⟩ = ⟨"b", "b", none, some ["c"]⟩ :=
  (c7_findRoot_single_level
      [⟨"a", "a", none, some []⟩, ⟨"b", "b", none, some ["c"]⟩] ⟨"c", "c", none, some []⟩).2
    [⟨"a", "a", none, some []⟩] ⟨"b", "b", none, some ["c"]⟩ [] rfl (by decide) (by decide)

/-- When the id is present in the working set, `findPerson` changes
nothing. -/
theorem findPerson_of_found (st : LinkState) (id : String)
    (h : ∃ m, st.people.find? (fun p => p.id == id) = some m) : findPerson st id = st := by
  obtain ⟨m, hm⟩ := h
  simp [findPerson, hm]

/-- Claim C6: resolving an id with no matching record is non-fatal: a
warning is recorded and a placeholder person is appended whose name
equals the missing id, whose children list is empty, and whose partner
is back-inferred as the first known record pointing at the missing id;
the placeholder joins the working set, so the same id now resolves to
that same person and a second resolution changes nothing. -/
theorem c6_missing_id_placeholder :
    ∀ (st : LinkState) (id : String),
      st.people.find? (fun p => p.id == id) = none →
      findPerson st id =
        { people := st.people ++
            [{ name := id, id := id, partner := backInfer st.people id, children := some [] }]
          warnings := st.warnings ++ ["Person not found with ID: " ++ id] } ∧
      (findPerson st id).people.find? (fun p => p.id == id) =
        some { name := id, id := id, partner := backInfer st.people id, children := some [] } ∧
      findPerson (findPerson st id) id = findPerson st id := by
  intro st id hmiss
  have h1 : findPerson st id =
      { people := st.people ++
          [{ name := id, id := id, partner := backInfer st.people id, children := some [] }]
        warnings := st.warnings ++ ["Person not found with ID: " ++ id] } := by
    simp [findPerson, hmiss]
  have h2 : (findPerson st id).people.find? (fun p => p.id == id) =
      some { name := id, id := id, partner := backInfer st.people id, children := some [] } := by
    rw [h1]
    simp [List.find?_append, hmiss]
  exact ⟨h1, h2, findPerson_of_found _ _ ⟨_, h2⟩⟩

/-- Witness for C6: resolving the dangling partner reference `x` of the
lone record `a` synthesizes the mutually linked placeholder
`⟨x, x, partner a, no children⟩`, and `x` then resolves to it. -/
theorem c6_missing_id_witness :
    (findPerson ⟨[⟨"a", "a", some "x", none⟩], []⟩ "x").people.find? (fun p => p.id == "x") =
      some ⟨"x", "x", backInfer [⟨"a", "a", some "x", none⟩] "x", some []⟩ :=
  (c6_missing_id_placeholder ⟨[⟨"a", "a", some "x", none⟩], []⟩ "x" (by decide)).2.1

/-! ## The duplicate merge, characterized -/

/-- Merging a later record into a canonical one keeps the canonical
id. -/
theorem mergeInto_id (d p : UPerson) : (mergeInto d p).id = d.id := rfl

/-- `mergeFirst` leaves the first record of any other id untouched. -/
theorem find?_mergeFirst_ne (acc : List UPerson) (p : UPerson) (x : String) (hne : p.id ≠ x) :
    (mergeFirst acc p).find? (fun q => q.id == x) = acc.find? (fun q => q.id == x) := by
  induction acc with
  | nil => simp [mergeFirst, hne]
  | cons d rest ih =>
      by_cases hd : d.id == p.id
      · have hdx : (d.id == x) = false := by
          simp only [beq_iff_eq] at hd
          simp [hd, hne]
        simp [mergeFirst, hd, List.find?_cons, hdx, mergeInto_id]
      · by_cases hx : d.id == x
        · simp [mergeFirst, hd, List.find?_cons, hx]
        · simp [mergeFirst, hd, List.find?_cons, hx, ih]

/-- When no canonical record has the incoming id, `mergeFirst` appends
the record. -/
theorem mergeFirst_of_new (acc : List UPerson) (p : UPerson)
    (h : acc.find? (fun q => q.id == p.id) = none) : mergeFirst acc p = acc ++ [p] := by
  induction acc with
  | nil => rfl
  | cons d rest ih =>
      have hd : ¬(d.id == p.id) = true :=
        List.find?_eq_none.mp h d (List.mem_cons_self d rest)
      have h' : rest.find? (fun q => q.id == p.id) = none :=
        List.find?_eq_none.mpr (fun x hx => List.find?_eq_none.mp h x (List.mem_cons_of_mem _ hx))
      simp [mergeFirst, hd, ih h']

/-- When a canonical record with the incoming id exists, `mergeFirst`
folds the record into the first such canonical. -/
theorem find?_mergeFirst_match (acc : List UPerson) (p : UPerson) (x : String) (m : UPerson)
    (hx : p.id = x) (h : acc.find? (fun q => q.id == x) = some m) :
    (mergeFirst acc p).find? (fun q => q.id == x) = some (mergeInto m p) := by
  induction acc with
  | nil => simp at h
  | cons d rest ih =>
      rw [List.find?_cons] at h
      by_cases hd : d.id == x
      · simp [hd] at h
        have hdp : (d.id == p.id) = true := by simp [beq_iff_eq] at hd ⊢; rw [hd, hx]
        subst h
        simp [mergeFirst, hdp, List.find?_cons, mergeInto_id, hd]
      · simp [hd] at h
        have hdp : (d.id == p.id) = false := by
          simp [beq_iff_eq] at hd ⊢
          intro he
          exact hd (he.trans hx)
        simp [mergeFirst, hdp, List.find?_cons, hd, ih h]

/-- The characterization of the merged record set: the record a given
id maps to is the fold, by `mergeInto`, of every later occurrence of
that id into the first one, in encounter order — and an id absent from
the input is absent from the merge. -/
theorem mergePeople_find? (l : List UPerson) :
    ∀ x, (mergePeople l).find? (fun q => q.id == x) =
      match l.filter (fun q => q.id == x) with
      | [] => none
      | h :: t => some (t.foldl mergeInto h) := by
  induction l using List.reverseRecOn with
  | nil => intro x; simp [mergePeople]
  | append_singleton l p ih =>
      intro x
      have hstep : mergePeople (l ++ [p]) = mergeFirst (mergePeople l) p := by
        simp [mergePeople, List.foldl_append]
      by_cases hpx : p.id == x
      · simp only [beq_iff_eq] at hpx
        cases hfl : l.filter (fun q => q.id == x) with
        | nil =>
            have hnone : (mergePeople l).find? (fun q => q.id == x) = none := by
              rw [ih x, hfl]
            have hnone' : (mergePeople l).find? (fun q => q.id == p.id) = none := by
              rw [hpx]; exact hnone
            rw [hstep, mergeFirst_of_new _ _ hnone', List.find?_append, hnone]
            simp [List.filter_append, hfl, hpx]
        | cons h t =>
            have hsome : (mergePeople l).find? (fun q => q.id == x) =
                some (t.foldl mergeInto h) := by rw [ih x, hfl]
            rw [hstep, find?_mergeFirst_match _ _ _ _ hpx hsome]
            simp [List.filter_append, hfl, hpx, List.foldl_append]
      · have hne : p.id ≠ x := by simpa [beq_iff_eq] using hpx
        rw [hstep, find?_mergeFirst_ne _ _ _ hne, ih x]
        simp [List.filter_append, hpx]

/-! ## Claim C5 -/

/-- Claim C5: two same-id records with complementary fields merge into
a single record carrying both — a canonical record with a truthy
partner and no children field adopts a later record's children, and a
canonical record without a truthy partner adopts a later record's
partner; in general the first occurrence of an id is canonical and
every later occurrence is folded into it in encounter order
(`mergeInto`: fill a missing partner, union children in first-seen
order, adopt a missing children field). -/
theorem c5_merge_complementary :
    (∀ l : List UPerson, ∀ x, (mergePeople l).find? (fun q => q.id == x) =
      match l.filter (fun q => q.id == x) with
      | [] => none
      | h :: t => some (t.foldl mergeInto h)) ∧
    (∀ r1 r2 : UPerson, ∀ cs, r2.id = r1.id → strTruthy r1.partner = true →
      r1.children = none → r2.children = some cs →
      mergePeople [r1, r2] = [{ r1 with children := some cs }]) ∧
    (∀ r1 r2 : UPerson, r2.id = r1.id → strTruthy r1.partner = false →
      r2.children = none →
      mergePeople [r1, r2] = [{ r1 with partner := r2.partner }]) := by
  refine ⟨mergePeople_find?, ?_, ?_⟩
  · intro r1 r2 cs hid hp hc1 hc2
    have : (r1.id == r2.id) = true := by simp [hid]
    simp [mergePeople, mergeFirst, this, mergeInto, hp, hc1, hc2]
  · intro r1 r2 hid hp hc2
    have : (r1.id == r2.id) = true := by simp [hid]
    cases hc1 : r1.children with
    | none => simp [mergePeople, mergeFirst, this, mergeInto, hp, hc1, hc2]
    | some dc => simp [mergePeople, mergeFirst, this, mergeInto, hp, hc1, hc2]

/-- Witness for C5: one source supplies a's partner, the other supplies
a's children; the merge yields the single record with both. -/
theorem c5_merge_witness :
    mergePeople [⟨"n1", "a", some "b", none⟩, ⟨"n2", "a", none, some ["c"]⟩] =
      [⟨"n1", "a", some "b", some ["c"]⟩] :=
  c5_merge_complementary.2.1 ⟨"n1", "a", some "b", none⟩ ⟨"n2", "a", none, some ["c"]⟩
    ["c"] rfl (by decide) rfl rfl

/-! ## The layout pass never follows the partner's own children -/

/-- Scrubbing preserves the number of children. -/
theorem scrubKids_length : ∀ l : List PTree, (scrubKids l).length = l.length
  | [] => rfl
  | _ :: rest => by simp [scrubKids, scrubKids_length rest]

/-- Scrubbing preserves the children-row width sum, given it preserves
each child's width. -/
theorem widthSum_scrubKids : ∀ l : List PTree,
    (∀ c ∈ l, getWidth (scrubPartnerChildren c) = getWidth c) →
    widthSum (scrubKids l) = widthSum l
  | [], _ => rfl
  | c :: rest, hw => by
      simp only [scrubKids, widthSum]
      rw [hw c (List.mem_cons_self c rest),
        widthSum_scrubKids rest (fun d hd => hw d (List.mem_cons_of_mem _ hd))]

/-- Scrubbing preserves the shown boxes of a children row, given it
preserves each child's. -/
theorem showKids_scrubKids : ∀ l : List PTree,
    (∀ c ∈ l, showTree (scrubPartnerChildren c) = showTree c) →
    showKids (scrubKids l) = showKids l
  | [], _ => rfl
  | c :: rest, hs => by
      simp only [scrubKids, showKids]
      rw [hs c (List.mem_cons_self c rest),
        showKids_scrubKids rest (fun d hd => hs d (List.mem_cons_of_mem _ hd))]

/-- Scrubbing preserves the placement of a children row, given it
preserves each child's width and placement. -/
theorem placeKids_scrubKids : ∀ l : List PTree,
    (∀ c ∈ l, getWidth (scrubPartnerChildren c) = getWidth c) →
    (∀ c ∈ l, ∀ x y, place (scrubPartnerChildren c) x y = place c x y) →
    ∀ left y, placeKids (scrubKids l) left y = placeKids l left y
  | [], _, _ => fun _ _ => rfl
  | c :: rest, hw, hp => fun left y => by
      simp only [scrubKids, placeKids]
      rw [hp c (List.mem_cons_self c rest) left y, hw c (List.mem_cons_self c rest),
        placeKids_scrubKids rest (fun d hd => hw d (List.mem_cons_of_mem _ hd))
          (fun d hd => hp d (List.mem_cons_of_mem _ hd))]

/-- A member of a present children list is smaller than the whole
subtree. -/
theorem sizeOf_child_lt {c : PTree} {l : List PTree} (hc : c ∈ l)
    (i : String) (w h : ℚ) (pr : Option (String × ℚ × ℚ × List PTree)) :
    sizeOf c < sizeOf (PTree.mk i w h pr (some l)) := by
  have := List.sizeOf_lt_of_mem hc
  simp only [PTree.mk.sizeOf_spec, Option.some.sizeOf_spec]
  omega

/-- Scrubbing the partners' own children lists out of a subtree changes
none of the layout outputs: widths, shown boxes and placement are
computed from each node's own children only. -/
theorem scrub_aux : ∀ n : Nat, ∀ t : PTree, sizeOf t ≤ n →
    getPartnerWidth (scrubPartnerChildren t) = getPartnerWidth t ∧
    getChildrenWidth (scrubPartnerChildren t) = getChildrenWidth t ∧
    getWidth (scrubPartnerChildren t) = getWidth t ∧
    showTree (scrubPartnerChildren t) = showTree t ∧
    ∀ x y, place (scrubPartnerChildren t) x y = place t x y := by
  intro n
  induction n with
  | zero =>
      intro t ht
      obtain ⟨i, w, h, pr, cs⟩ := t
      simp only [PTree.mk.sizeOf_spec] at ht
      omega
  | succ n ih =>
      intro t ht
      obtain ⟨i, w, h, pr, cs⟩ := t
      have hkids : ∀ l, cs = some l → ∀ c ∈ l,
          getPartnerWidth (scrubPartnerChildren c) = getPartnerWidth c ∧
          getChildrenWidth (scrubPartnerChildren c) = getChildrenWidth c ∧
          getWidth (scrubPartnerChildren c) = getWidth c ∧
          showTree (scrubPartnerChildren c) = showTree c ∧
          ∀ x y, place (scrubPartnerChildren c) x y = place c x y := by
        intro l hl c hc
        refine ih c ?_
        have := sizeOf_child_lt hc i w h pr
        subst hl
        omega
      have hpw : getPartnerWidth (scrubPartnerChildren (PTree.mk i w h pr cs)) =
          getPartnerWidth (PTree.mk i w h pr cs) := by
        obtain _ | ⟨qi, qw, qh, qcs⟩ := pr <;> obtain _ | l := cs <;>
          simp [scrubPartnerChildren, getPartnerWidth]
      have hcw : getChildrenWidth (scrubPartnerChildren (PTree.mk i w h pr cs)) =
          getChildrenWidth (PTree.mk i w h pr cs) := by
        obtain _ | l := cs
        · obtain _ | ⟨qi, qw, qh, qcs⟩ := pr <;>
            simp [scrubPartnerChildren, getChildrenWidth]
        · have hws := widthSum_scrubKids l (fun c hc => (hkids l rfl c hc).2.2.1)
          obtain _ | ⟨qi, qw, qh, qcs⟩ := pr <;>
            simp [scrubPartnerChildren, getChildrenWidth, scrubKids_length, hws]
      have hw : getWidth (scrubPartnerChildren (PTree.mk i w h pr cs)) =
          getWidth (PTree.mk i w h pr cs) := by
        rw [getWidth, getWidth, hpw, hcw]
      refine ⟨hpw, hcw, hw, ?_, ?_⟩
      · obtain _ | l := cs
        · obtain _ | ⟨qi, qw, qh, qcs⟩ := pr <;> simp [scrubPartnerChildren, showTree]
        · have hss := showKids_scrubKids l (fun c hc => (hkids l rfl c hc).2.2.2.1)
          obtain _ | ⟨qi, qw, qh, qcs⟩ := pr <;> simp [scrubPartnerChildren, showTree, hss]
      · intro x y
        obtain _ | l := cs
        · obtain _ | ⟨qi, qw, qh, qcs⟩ := pr <;>
            · simp only [scrubPartnerChildren] at hpw hcw hw
              simp [scrubPartnerChildren, place, hpw, hcw, hw]
        · have hpk := placeKids_scrubKids l (fun c hc => (hkids l rfl c hc).2.2.1)
            (fun c hc => (hkids l rfl c hc).2.2.2.2)
          obtain _ | ⟨qi, qw, qh, qcs⟩ := pr <;>
            · simp only [scrubPartnerChildren] at hpw hcw hw
              simp [scrubPartnerChildren, place, hpw, hcw, hw, hpk]

/-! ## Claim C10 -/

/-- Claim C10: `show`, `place` and `draw` iterate exclusively over each
node's own children — replacing every partner's own children list by
the empty list changes neither the shown boxes, nor the placement, nor
the drawn lines — while the partner's own box is rendered whenever the
node is partnered. -/
theorem c10_layout_own_children_only :
    (∀ t : PTree, showTree (scrubPartnerChildren t) = showTree t ∧
      (∀ x y, place (scrubPartnerChildren t) x y = place t x y) ∧
      (∀ x y, draw (place (scrubPartnerChildren t) x y) = draw (place t x y))) ∧
    (∀ i : String, ∀ w h : ℚ, ∀ qi : String, ∀ qw qh : ℚ,
      ∀ qcs : List PTree, ∀ cs : Option (List PTree),
      qi ∈ showTree (PTree.mk i w h (some (qi, qw, qh, qcs)) cs)) := by
  constructor
  · intro t
    obtain ⟨hpw, hcw, hwd, hshow, hplace⟩ := scrub_aux (sizeOf t) t le_rfl
    exact ⟨hshow, hplace, fun x y => by rw [hplace x y]⟩
  · intro i w h qi qw qh qcs cs
    obtain _ | l := cs <;> simp [showTree]

/-! ## Claim C8: the placement pass -/

/-- The running-x offset of the j-th child in a children row: the
widths of the children before it, each followed by the spacing gap. -/
def rowOffset (l : List PTree) (j : Nat) : ℚ :=
  ((l.take j).map (fun c => getWidth c + PERSON_SPACE)).sum

/-- The j-th element of a placed children row: the j-th child placed at
the row start advanced by the widths and gaps of the children before
it. -/
theorem placeKids_getElem? : ∀ (l : List PTree) (j : Nat) (hj : j < l.length) (left y : ℚ),
    (placeKids l left y)[j]? = some (place (l.get ⟨j, hj⟩) (left + rowOffset l j) y)
  | c :: rest, 0, _, left, y => by simp [placeKids, rowOffset]
  | c :: rest, Nat.succ j, hj, left, y => by
      have ih := placeKids_getElem? rest j (by simpa using hj) (left + getWidth c + PERSON_SPACE) y
      simp only [placeKids, List.getElem?_cons_succ, ih, List.get_cons_succ]
      have harith : left + getWidth c + PERSON_SPACE + rowOffset rest j =
          left + rowOffset (c :: rest) (Nat.succ j) := by
        simp [rowOffset, List.take_succ_cons]
        ring
      rw [harith]

/-- The strict comparison of the code and the non-strict comparison of
the claim pick the same children-row start: at equality the centering
offset is zero. -/
theorem left0_eq (pw cw x : ℚ) :
    (if pw < cw then x else x + (pw - cw) / 2) =
      (if pw ≤ cw then x else x + (pw - cw) / 2) := by
  rcases lt_trichotomy pw cw with hlt | heq | hgt
  · simp [hlt, le_of_lt hlt]
  · simp [heq]
  · simp [not_lt_of_gt hgt, not_le_of_gt hgt]

/-- Claim C8: placing a partnered person's subtree at `(x, y)` puts the
person's own box at `x + (width - partnerWidth) / 2`, the partner box
immediately right of it with a `PERSON_SPACE` gap, and the children one
generation down starting at `x` when the children row is at least as
wide as the partner pair — centered under the pair otherwise — with the
running x advanced past each child's width plus the gap. -/
theorem c8_place_positions :
    ∀ (i : String) (w h : ℚ) (qi : String) (qw qh : ℚ) (qcs : List PTree)
      (cs : List PTree) (x y : ℚ),
      (place (PTree.mk i w h (some (qi, qw, qh, qcs)) (some cs)) x y).rect =
        movedRect w h (x + (getWidth (PTree.mk i w h (some (qi, qw, qh, qcs)) (some cs)) -
          getPartnerWidth (PTree.mk i w h (some (qi, qw, qh, qcs)) (some cs))) / 2) y ∧
      (place (PTree.mk i w h (some (qi, qw, qh, qcs)) (some cs)) x y).partnerRect =
        some (movedRect qw qh
          (x + (getWidth (PTree.mk i w h (some (qi, qw, qh, qcs)) (some cs)) -
            getPartnerWidth (PTree.mk i w h (some (qi, qw, qh, qcs)) (some cs))) / 2 +
            w + PERSON_SPACE) y) ∧
      ∀ (j : Nat) (hj : j < cs.length),
        ((place (PTree.mk i w h (some (qi, qw, qh, qcs)) (some cs)) x y).children)[j]? =
          some (place (cs.get ⟨j, hj⟩)
            ((if getPartnerWidth (PTree.mk i w h (some (qi, qw, qh, qcs)) (some cs)) ≤
                getChildrenWidth (PTree.mk i w h (some (qi, qw, qh, qcs)) (some cs)) then x
              else x + (getPartnerWidth (PTree.mk i w h (some (qi, qw, qh, qcs)) (some cs)) -
                getChildrenWidth (PTree.mk i w h (some (qi, qw, qh, qcs)) (some cs))) / 2) +
              rowOffset cs j)
            (y + GEN_SPACE)) := by
  intro i w h qi qw qh qcs cs x y
  refine ⟨by simp [place, Placed.rect], by simp [place, Placed.partnerRect], ?_⟩
  intro j hj
  simp only [place, Placed.children]
  rw [placeKids_getElem? cs j hj, left0_eq]

/-- Witness for C8: a pair of boxes 50 and 30 wide with two children of
subtree widths 40 and 60 — the pair width is 100, the children row is
120 wide, so the subtree is 120 wide, the own box lands at 10, the
partner box at 80, and the second child's subtree starts at
`40 + 20 = 60`, one generation down. -/
theorem c8_place_witness :
    (place (PTree.mk "a" 50 10 (some ("b", 30, 10, []))
        (some [PTree.mk "c" 40 10 none (some []), PTree.mk "d" 60 10 none (some [])])) 0 0).rect =
      ⟨0, 10, 10, 60⟩ ∧
    (place (PTree.mk "a" 50 10 (some ("b", 30, 10, []))
        (some [PTree.mk "c" 40 10 none (some []), PTree.mk "d" 60 10 none (some [])])) 0 0).partnerRect =
      some ⟨0, 10, 80, 110⟩ ∧
    ((place (PTree.mk "a" 50 10 (some ("b", 30, 10, []))
        (some [PTree.mk "c" 40 10 none (some []), PTree.mk "d" 60 10 none (some [])])) 0 0).children)[1]? =
      some (place (PTree.mk "d" 60 10 none (some [])) 60 55) := by
  have hc := c8_place_positions "a" 50 10 "b" 30 10 []
    [PTree.mk "c" 40 10 none (some []), PTree.mk "d" 60 10 none (some [])] 0 0
  have hpw : getPartnerWidth (PTree.mk "a" 50 10 (some ("b", 30, 10, []))
      (some [PTree.mk "c" 40 10 none (some []), PTree.mk "d" 60 10 none (some [])])) = 100 := by
    norm_num [getPartnerWidth, PERSON_SPACE]
  have hcw : getChildrenWidth (PTree.mk "a" 50 10 (some ("b", 30, 10, []))
      (some [PTree.mk "c" 40 10 none (some []), PTree.mk "d" 60 10 none (some [])])) = 120 := by
    norm_num [getChildrenWidth, widthSum, getWidth, getPartnerWidth, PERSON_SPACE]
  have hgw : getWidth (PTree.mk "a" 50 10 (some ("b", 30, 10, []))
      (some [PTree.mk "c" 40 10 none (some []), PTree.mk "d" 60 10 none (some [])])) = 120 := by
    rw [getWidth, hpw, hcw]
    norm_num
  refine ⟨?_, ?_, ?_⟩
  · rw [hc.1, hgw, hpw]
    norm_num [movedRect]
  · rw [hc.2.1, hgw, hpw]
    norm_num [movedRect, PERSON_SPACE]
  · rw [hc.2.2 1 (by norm_num), hpw, hcw]
    norm_num [rowOffset, getWidth, getPartnerWidth, getChildrenWidth, widthSum,
      PERSON_SPACE, GEN_SPACE, List.get]

/-! ## Partner symmetry through the linking pass -/

/-- Members of a list with pairwise distinct ids are determined by
their id. -/
theorem nodup_ids_eq {l : List UPerson} (hnd : (l.map (fun p => p.id)).Nodup)
    {p q : UPerson} (hp : p ∈ l) (hq : q ∈ l) (h : p.id = q.id) : p = q :=
  List.inj_on_of_nodup_map hnd hp hq h

/-- `findPerson` only ever appends to the working list. -/
theorem findPerson_people_shape (st : LinkState) (id : String) :
    ∃ tail, (findPerson st id).people = st.people ++ tail := by
  cases h : st.people.find? (fun p => p.id == id) with
  | some m => exact ⟨[], by simp [findPerson, h]⟩
  | none =>
      exact ⟨[{ name := id, id := id, partner := backInfer st.people id, children := some [] }],
        by simp [findPerson, h]⟩

/-- A fold of reference resolutions only ever appends to the working
list. -/
theorem foldl_findPerson_shape (ids : List String) : ∀ st : LinkState,
    ∃ tail, (ids.foldl findPerson st).people = st.people ++ tail := by
  induction ids with
  | nil => exact fun st => ⟨[], by simp⟩
  | cons c rest ih =>
      intro st
      obtain ⟨t1, h1⟩ := findPerson_people_shape st c
      obtain ⟨t2, h2⟩ := ih (findPerson st c)
      exact ⟨t1 ++ t2, by rw [List.foldl_cons, h2, h1, List.append_assoc]⟩

/-- The invariant that carries partner symmetry through the linking
loop: pairwise distinct ids, a symmetric partner relation, and no two
records pointing at the same partner target. -/
def PInv (l : List UPerson) : Prop :=
  (l.map (fun p => p.id)).Nodup ∧ partnerSymmetric l ∧ partnerInjective l

/-- Appending the placeholder `findPerson` synthesizes for a missing id
preserves the invariant: the back-inferred partner makes the new pair
mutual, and injectivity rules out a second record pointing at the
missing id. -/
theorem pinv_append_placeholder (l : List UPerson) (id : String)
    (hno : ∀ p ∈ l, p.id ≠ id) (h : PInv l) :
    PInv (l ++ [{ name := id, id := id, partner := backInfer l id, children := some [] }]) := by
  obtain ⟨hnd, hsym, hinj⟩ := h
  have hidnm : id ∉ l.map (fun p => p.id) := by
    intro hmem
    obtain ⟨p, hp, hpe⟩ := List.mem_map.mp hmem
    exact hno p hp hpe
  refine ⟨?_, ?_, ?_⟩
  · rw [List.map_append, List.map_cons, List.map_nil, List.nodup_append]
    exact ⟨hnd, List.nodup_singleton id, fun a ha hb => by
      rw [List.mem_singleton] at hb
      subst hb
      exact hidnm ha⟩
  · intro A hA B hB htru hAB
    rw [List.mem_append, List.mem_singleton] at hA hB
    cases hbi : l.find? (fun p => strTruthy p.partner && p.partner.getD "" == id) with
    | none =>
        have hph : backInfer l id = none := by simp [backInfer, hbi]
        rcases hA with hA | hA
        · rcases hB with hB | hB
          · exact hsym A hA B hB htru hAB
          · subst hB
            exfalso
            have hApart : A.partner = some id := hAB
            apply List.find?_eq_none.mp hbi A hA
            rw [Bool.and_eq_true]
            exact ⟨htru, by simp [hApart]⟩
        · subst hA
          have : strTruthy (backInfer l id) = true := htru
          rw [hph] at this
          simp [strTruthy] at this
    | some q =>
        have hq_mem : q ∈ l := List.mem_of_find?_eq_some hbi
        have hq_pred := List.find?_some hbi
        rw [Bool.and_eq_true] at hq_pred
        have hq_tru : strTruthy q.partner = true := hq_pred.1
        have hq_part : q.partner = some id := by
          cases hqp : q.partner with
          | none => rw [hqp] at hq_tru; simp [strTruthy] at hq_tru
          | some s =>
              have hs := hq_pred.2
              rw [hqp] at hs
              simp only [Option.getD_some, beq_iff_eq] at hs
              rw [hs]
        have hph : backInfer l id = some q.id := by simp [backInfer, hbi]
        rcases hA with hA | hA
        · rcases hB with hB | hB
          · exact hsym A hA B hB htru hAB
          · subst hB
            have hApart : A.partner = some id := hAB
            have hAq : A.id = q.id :=
              hinj A hA q hq_mem htru (by rw [hApart, hq_part])
            show backInfer l id = some A.id
            rw [hph, hAq]
        · subst hA
          have hAback : backInfer l id = some B.id := hAB
          rcases hB with hB | hB
          · have hBq : B = q := by
              refine nodup_ids_eq hnd hB hq_mem ?_
              rw [hph] at hAback
              exact (Option.some.injEq _ _ ▸ hAback :
                (q.id : String) = B.id).symm
            show B.partner = some id
            rw [hBq]
            exact hq_part
          · subst hB
            exfalso
            have : backInfer l id = some id := hAback
            rw [hph] at this
            have hqid : q.id = id := by simpa using this
            exact hno q hq_mem hqid
  · intro p hp q' hq' htru hpq
    rw [List.mem_append, List.mem_singleton] at hp hq'
    cases hbi : l.find? (fun p => strTruthy p.partner && p.partner.getD "" == id) with
    | none =>
        have hph : backInfer l id = none := by simp [backInfer, hbi]
        rcases hp with hp | hp
        · rcases hq' with hq' | hq'
          · exact hinj p hp q' hq' htru hpq
          · subst hq'
            exfalso
            have : p.partner = backInfer l id := hpq
            rw [hph] at this
            rw [this] at htru
            simp [strTruthy] at htru
        · subst hp
          exfalso
          have : strTruthy (backInfer l id) = true := htru
          rw [hph] at this
          simp [strTruthy] at this
    | some q =>
        have hq_mem : q ∈ l := List.mem_of_find?_eq_some hbi
        have hq_pred := List.find?_some hbi
        rw [Bool.and_eq_true] at hq_pred
        have hq_tru : strTruthy q.partner = true := hq_pred.1
        have hq_part : q.partner = some id := by
          cases hqp : q.partner with
          | none => rw [hqp] at hq_tru; simp [strTruthy] at hq_tru
          | some s =>
              have hs := hq_pred.2
              rw [hqp] at hs
              simp only [Option.getD_some, beq_iff_eq] at hs
              rw [hs]
        have hph : backInfer l id = some q.id := by simp [backInfer, hbi]
        rcases hp with hp | hp
        · rcases hq' with hq' | hq'
          · exact hinj p hp q' hq' htru hpq
          · subst hq'
            have hppart : p.partner = some q.id := by
              have : p.partner = backInfer l id := hpq
              rw [this, hph]
            have hqsym := hsym p hp q hq_mem htru hppart
            rw [hq_part] at hqsym
            have : p.id = id := by simpa using hqsym.symm
            exact this
        · subst hp
          have htru' : strTruthy (backInfer l id) = true := htru
          rcases hq' with hq' | hq'
          · have hq'part : q'.partner = some q.id := by
              have : backInfer l id = q'.partner := hpq
              rw [← this, hph]
            have hq'tru : strTruthy q'.partner = true := by
              rw [← hpq]
              exact htru'
            have hqsym := hsym q' hq' q hq_mem hq'tru hq'part
            rw [hq_part] at hqsym
            have hq'id : q'.id = id := by simpa using hqsym.symm
            show (id : String) = q'.id
            rw [hq'id]
          · rw [hq']

/-- `findPerson` preserves the linking invariant. -/
theorem findPerson_pinv (st : LinkState) (id : String) (h : PInv st.people) :
    PInv (findPerson st id).people := by
  cases hf : st.people.find? (fun p => p.id == id) with
  | some m => simpa [findPerson, hf] using h
  | none =>
      have hno : ∀ p ∈ st.people, p.id ≠ id := by
        intro p hp
        have := List.find?_eq_none.mp hf p hp
        simpa using this
      simpa [findPerson, hf] using pinv_append_placeholder st.people id hno h

/-- A fold of reference resolutions preserves the linking invariant. -/
theorem foldl_findPerson_pinv (ids : List String) : ∀ st : LinkState, PInv st.people →
    PInv ((ids.foldl findPerson st).people) := by
  induction ids with
  | nil => exact fun st h => h
  | cons c rest ih => exact fun st h => ih (findPerson st c) (findPerson_pinv st c h)

/-- Replacing a list entry by one with the same id and partner
preserves the linking invariant. -/
theorem pinv_set (l : List UPerson) (i : Nat) (p p' : UPerson) (h : PInv l)
    (hi : l[i]? = some p) (hid : p'.id = p.id) (hpa : p'.partner = p.partner) :
    PInv (l.set i p') := by
  obtain ⟨hnd, hsym, hinj⟩ := h
  have hpmem : p ∈ l := List.getElem?_mem hi
  have key : ∀ X ∈ l.set i p', ∃ Y ∈ l, Y.id = X.id ∧ Y.partner = X.partner := by
    intro X hX
    rcases List.mem_or_eq_of_mem_set hX with hX' | hX'
    · exact ⟨X, hX', rfl, rfl⟩
    · subst hX'
      exact ⟨p, hpmem, hid.symm, hpa.symm⟩
  refine ⟨?_, ?_, ?_⟩
  · have : (l.set i p').map (fun q => q.id) = l.map (fun q => q.id) := by
      rw [List.map_set]
      refine List.ext_getElem? fun n => ?_
      rw [List.getElem?_set]
      by_cases hn : i = n
      · subst hn
        by_cases hlt : i < (l.map (fun q => q.id)).length
        · rw [if_pos rfl, if_pos hlt, List.getElem?_map, hi]
          simp [hid]
        · rw [if_pos rfl, if_neg hlt]
          symm
          rw [List.getElem?_eq_none_iff]
          omega
      · rw [if_neg hn]
    rw [this]
    exact hnd
  · intro A hA B hB htru hAB
    obtain ⟨A0, hA0, hAid, hApa⟩ := key A hA
    obtain ⟨B0, hB0, hBid, hBpa⟩ := key B hB
    have := hsym A0 hA0 B0 hB0 (by rw [hApa]; exact htru) (by rw [hApa, hAB, hBid])
    rw [hBpa, hAid] at this
    exact this
  · intro A hA B hB htru hAB
    obtain ⟨A0, hA0, hAid, hApa⟩ := key A hA
    obtain ⟨B0, hB0, hBid, hBpa⟩ := key B hB
    have := hinj A0 hA0 B0 hB0 (by rw [hApa]; exact htru) (by rw [hApa, hBpa, hAB])
    rw [hAid, hBid] at this
    exact this

/-- One iteration of the linking loop preserves the invariant. -/
theorem processAt_pinv (st : LinkState) (i : Nat) (h : PInv st.people) :
    PInv (processAt st i).people := by
  unfold processAt
  cases hp : st.people[i]? with
  | none => exact h
  | some person =>
      simp only
      have h1 : PInv (if strTruthy person.partner then
          findPerson st (person.partner.getD "") else st).people := by
        split
        · exact findPerson_pinv _ _ h
        · exact h
      have h2 := foldl_findPerson_pinv (person.children.getD []) _ h1
      have hshape1 : ∃ t, (if strTruthy person.partner then
          findPerson st (person.partner.getD "") else st).people = st.people ++ t := by
        split
        · exact findPerson_people_shape _ _
        · exact ⟨[], by simp⟩
      obtain ⟨t1, e1⟩ := hshape1
      obtain ⟨t2, e2⟩ := foldl_findPerson_shape (person.children.getD [])
        (if strTruthy person.partner then findPerson st (person.partner.getD "") else st)
      have hlt : i < st.people.length := (List.getElem?_eq_some.mp hp).1
      have hidx : ((person.children.getD []).foldl findPerson
          (if strTruthy person.partner then findPerson st (person.partner.getD "") else st)).people[i]? =
          some person := by
        rw [e2, e1, List.append_assoc, List.getElem?_append_left hlt]
        exact hp
      exact pinv_set _ i person (childDefault person) h2 hidx rfl rfl

/-- The whole linking loop preserves the invariant. -/
theorem linkLoop_pinv : ∀ (fuel i : Nat) (st : LinkState), PInv st.people →
    PInv ((linkLoop fuel i st).people) := by
  intro fuel
  induction fuel with
  | zero => exact fun i st h => h
  | succ fuel ih =>
      intro i st h
      rw [linkLoop]
      split
      · exact ih (i + 1) _ (processAt_pinv st i h)
      · exact h

/-! ## Claim C1 -/

/-- Claim C1, counterexample: linking the records
`a (partner b)` and `b (no partner)` leaves `a` pointing at `b` while
`b` points back at no one — the produced graph is not
partner-symmetric. -/
theorem c1_partner_symmetry_counterexample :
    ¬ partnerSymmetric (linkPeople [⟨"a", "a", some "b", none⟩, ⟨"b", "b", none, none⟩]).people := by
  unfold partnerSymmetric
  decide

/-- Claim C1, amended: the linker does not enforce symmetry — an
unreciprocated partner field yields a one-sided link — but whenever the
merged records have pairwise distinct ids, partner fields that are
reciprocated wherever both endpoints exist, and no two records pointing
at the same partner target, the linked graph's partner relation is
symmetric (placeholders synthesized for dangling partner references get
the pointing record back-inferred as partner, keeping the pair
mutual). -/
theorem c1_partner_symmetry_amended (l : List UPerson)
    (hnd : (l.map (fun p => p.id)).Nodup) (hsym : partnerSymmetric l)
    (hinj : partnerInjective l) :
    partnerSymmetric (linkPeople l).people :=
  (linkLoop_pinv (linkFuel l) 0 { people := l, warnings := [] } ⟨hnd, hsym, hinj⟩).2.1

/-- Witness for C1: a reciprocal pair of records links to a symmetric
graph. -/
theorem c1_partner_symmetry_witness :
    partnerSymmetric (linkPeople [⟨"a", "a", some "b", none⟩, ⟨"b", "b", some "a", none⟩]).people :=
  c1_partner_symmetry_amended [⟨"a", "a", some "b", none⟩, ⟨"b", "b", some "a", none⟩]
    (by decide) (by unfold partnerSymmetric; decide) (by unfold partnerInjective; decide)

/-! ## Linking a fully resolvable record set -/

/-- `findPerson` changes nothing when some working-set member carries
the id. -/
theorem findPerson_of_present (st : LinkState) (id : String)
    (h : ∃ m ∈ st.people, m.id = id) : findPerson st id = st := by
  apply findPerson_of_found
  obtain ⟨m, hm, he⟩ := h
  have : (st.people.find? (fun p => p.id == id)).isSome = true :=
    List.find?_isSome.mpr ⟨m, hm, by simp [he]⟩
  exact Option.isSome_iff_exists.mp this

/-- A fold of resolutions of present ids changes nothing. -/
theorem foldl_findPerson_of_present (ids : List String) (st : LinkState)
    (h : ∀ c ∈ ids, ∃ m ∈ st.people, m.id = c) : ids.foldl findPerson st = st := by
  induction ids with
  | nil => rfl
  | cons c rest ih =>
      rw [List.foldl_cons, findPerson_of_present st c (h c (List.mem_cons_self c rest))]
      exact ih (fun c' hc' => h c' (List.mem_cons_of_mem _ hc'))

/-- When every reference of every record resolves within the list, the
linking loop synthesizes nothing: it only walks the list, storing each
person's (unchanged) children ids and defaulting an absent children
field to the empty list. -/
theorem linkLoop_noDang (l : List UPerson) (hnd : noDang l) :
    ∀ (fuel i : Nat) (w : List String), l.length - i ≤ fuel →
      linkLoop fuel i { people := (l.take i).map childDefault ++ l.drop i, warnings := w } =
        { people := l.map childDefault, warnings := w } := by
  have hids : ∀ (i : Nat) (q : UPerson), q ∈ l →
      ∃ m ∈ (l.take i).map childDefault ++ l.drop i, m.id = q.id := by
    intro i q hq
    have : q ∈ l.take i ++ l.drop i := by rw [List.take_append_drop]; exact hq
    rcases List.mem_append.mp this with h | h
    · exact ⟨childDefault q, List.mem_append.mpr (Or.inl (List.mem_map_of_mem _ h)), rfl⟩
    · exact ⟨q, List.mem_append.mpr (Or.inr h), rfl⟩
  have hdone : ∀ (i : Nat) (w : List String), l.length ≤ i →
      ({ people := (l.take i).map childDefault ++ l.drop i, warnings := w } : LinkState) =
        { people := l.map childDefault, warnings := w } := by
    intro i w hi
    rw [List.take_of_length_le hi, List.drop_eq_nil_of_le hi, List.append_nil]
  intro fuel
  induction fuel with
  | zero =>
      intro i w hle
      rw [linkLoop]
      exact hdone i w (by omega)
  | succ fuel ih =>
      intro i w hle
      have hplen : ((l.take i).map childDefault ++ l.drop i).length = l.length := by
        simp only [List.length_append, List.length_map, List.length_take, List.length_drop]
        omega
      by_cases hi : i < l.length
      · rw [linkLoop, if_pos (by rw [hplen]; exact hi)]
        have hat : ((l.take i).map childDefault ++ l.drop i)[i]? = some l[i] := by
          rw [List.getElem?_append_right (by simp [List.length_map, List.length_take]),
            List.getElem?_drop]
          have hlen : ((l.take i).map childDefault).length = i := by
            simp [List.length_map, List.length_take]
            omega
          rw [hlen, Nat.sub_self, Nat.add_zero]
          exact List.getElem?_eq_getElem hi
        have hproc : processAt { people := (l.take i).map childDefault ++ l.drop i, warnings := w } i =
            { people := (l.take (i + 1)).map childDefault ++ l.drop (i + 1), warnings := w } := by
          unfold processAt
          rw [hat]
          simp only
          have hmem : l[i] ∈ l := List.getElem_mem hi
          have hst1 : (if strTruthy l[i].partner then
              findPerson { people := (l.take i).map childDefault ++ l.drop i, warnings := w }
                (l[i].partner.getD "") else
              { people := (l.take i).map childDefault ++ l.drop i, warnings := w }) =
              { people := (l.take i).map childDefault ++ l.drop i, warnings := w } := by
            split
            · apply findPerson_of_present
              obtain ⟨q, hq, he⟩ := (hnd l[i] hmem).1 (by assumption)
              exact (hids i q hq).imp (fun m ⟨hm, he'⟩ => ⟨hm, he'.trans he⟩)
            · rfl
          rw [hst1]
          rw [foldl_findPerson_of_present _ _ (fun c hc => by
            obtain ⟨q, hq, he⟩ := (hnd l[i] hmem).2 c hc
            exact (hids i q hq).imp (fun m ⟨hm, he'⟩ => ⟨hm, he'.trans he⟩))]
          simp only [LinkState.mk.injEq, and_true]
          have hlen : ((l.take i).map childDefault).length = i := by
            simp [List.length_map, List.length_take]
            omega
          rw [List.set_append, if_neg (by rw [hlen]; omega), hlen, Nat.sub_self]
          rw [← List.getElem_cons_drop l i hi]
          simp only [List.set_cons_zero]
          rw [List.take_succ, List.getElem?_eq_getElem hi]
          simp only [Option.toList_some, List.map_append, List.map_cons, List.map_nil,
            List.append_assoc, List.singleton_append, List.cons_append, List.nil_append]
        rw [hproc]
        exact ih (i + 1) w (by omega)
      · rw [linkLoop, if_neg (by rw [hplen]; exact hi)]
        exact hdone i w (by omega)

/-- Linking a record set whose references all resolve internally maps
each record to itself with the children field defaulted, with no
warnings. -/
theorem linkPeople_noDang (l : List UPerson) (hnd : noDang l) :
    linkPeople l = { people := l.map childDefault, warnings := [] } := by
  have h0 : l.length - 0 ≤ linkFuel l := by
    unfold linkFuel
    omega
  have := linkLoop_noDang l hnd (linkFuel l) 0 [] h0
  simpa using this

/-! ## The merge does not invent or lose ids -/

/-- Every id of a `mergeFirst` result comes from the accumulator or the
incoming record. -/
theorem mergeFirst_ids (acc : List UPerson) (p : UPerson) :
    ∀ m ∈ mergeFirst acc p, m.id ∈ acc.map (fun q => q.id) ∨ m.id = p.id := by
  induction acc with
  | nil =>
      intro m hm
      rw [mergeFirst, List.mem_singleton] at hm
      subst hm
      right
      rfl
  | cons d rest ih =>
      intro m hm
      rw [mergeFirst] at hm
      by_cases hd : (d.id == p.id) = true
      · rw [if_pos hd] at hm
        rcases List.mem_cons.mp hm with h | h
        · subst h
          left
          rw [mergeInto_id]
          simp
        · left
          rw [List.map_cons]
          exact List.mem_cons_of_mem _ (List.mem_map_of_mem _ h)
      · rw [if_neg hd] at hm
        rcases List.mem_cons.mp hm with h | h
        · subst h
          left
          simp
        · rcases ih m h with h' | h'
          · left
            rw [List.map_cons]
            exact List.mem_cons_of_mem _ h'
          · right
            exact h'

/-- Every id of a merged record set comes from the input records. -/
theorem mergePeople_ids (l : List UPerson) (m : UPerson) (hm : m ∈ mergePeople l) :
    ∃ p ∈ l, m.id = p.id := by
  suffices h : ∀ (L acc : List UPerson), ∀ m ∈ L.foldl mergeFirst acc,
      m.id ∈ acc.map (fun q => q.id) ∨ ∃ p ∈ L, m.id = p.id by
    rcases h l [] m hm with h' | h'
    · simp at h'
    · exact h'
  intro L
  induction L with
  | nil =>
      intro acc m hm
      left
      exact List.mem_map_of_mem _ hm
  | cons p rest ih =>
      intro acc m hm
      rw [List.foldl_cons] at hm
      rcases ih (mergeFirst acc p) m hm with h | h
      · obtain ⟨m', hm', he⟩ := List.mem_map.mp h
        rcases mergeFirst_ids acc p m' hm' with h' | h'
        · left
          rw [← he]
          exact h'
        · right
          exact ⟨p, List.mem_cons_self p rest, by rw [← he, h']⟩
      · obtain ⟨p', hp', he⟩ := h
        exact Or.inr ⟨p', List.mem_cons_of_mem _ hp', he⟩

/-- `mergeFirst` passes over a canonical block holding no matching
id. -/
theorem mergeFirst_append_left (L acc : List UPerson) (p : UPerson)
    (h : ∀ m ∈ L, m.id ≠ p.id) : mergeFirst (L ++ acc) p = L ++ mergeFirst acc p := by
  induction L with
  | nil => rfl
  | cons d rest ih =>
      have hd : (d.id == p.id) = false := by
        simp [h d (List.mem_cons_self d rest)]
      rw [List.cons_append, mergeFirst, if_neg (by simp [hd]),
        ih (fun m hm => h m (List.mem_cons_of_mem _ hm)), List.cons_append]

/-- Folding records whose ids avoid a canonical block leaves the block
untouched. -/
theorem foldl_mergeFirst_append (B : List UPerson) : ∀ (L acc : List UPerson),
    (∀ b ∈ B, ∀ m ∈ L, m.id ≠ b.id) →
    B.foldl mergeFirst (L ++ acc) = L ++ B.foldl mergeFirst acc := by
  induction B with
  | nil => intro L acc _; rfl
  | cons b rest ih =>
      intro L acc h
      rw [List.foldl_cons, mergeFirst_append_left L acc b
          (fun m hm => h b (List.mem_cons_self b rest) m hm), List.foldl_cons,
        ih L (mergeFirst acc b) (fun b' hb' m hm => h b' (List.mem_cons_of_mem _ hb') m hm)]

/-- Merging the concatenation of two id-disjoint record collections is
the concatenation of their merges. -/
theorem mergePeople_append_disjoint (A B : List UPerson)
    (hdis : ∀ q ∈ B, ∀ p ∈ A, p.id ≠ q.id) :
    mergePeople (A ++ B) = mergePeople A ++ mergePeople B := by
  unfold mergePeople
  rw [List.foldl_append]
  have hcond : ∀ b ∈ B, ∀ m ∈ List.foldl mergeFirst [] A, m.id ≠ b.id := by
    intro b hb m hm
    obtain ⟨p, hp, he⟩ := mergePeople_ids A m hm
    rw [he]
    exact hdis b hb p hp
  calc B.foldl mergeFirst (A.foldl mergeFirst [])
      = B.foldl mergeFirst (A.foldl mergeFirst [] ++ []) := by rw [List.append_nil]
    _ = A.foldl mergeFirst [] ++ B.foldl mergeFirst [] :=
        foldl_mergeFirst_append B _ [] hcond

/-- Resolvability of references is stable under swapping the two halves
of a concatenation. -/
theorem noDang_append_comm (x y : List UPerson) (h : noDang (x ++ y)) : noDang (y ++ x) := by
  intro p hp
  have hp' : p ∈ x ++ y := by
    rw [List.mem_append] at hp ⊢
    tauto
  obtain ⟨h1, h2⟩ := h p hp'
  constructor
  · intro ht
    obtain ⟨q, hq, he⟩ := h1 ht
    refine ⟨q, ?_, he⟩
    rw [List.mem_append] at hq ⊢
    tauto
  · intro c hc
    obtain ⟨q, hq, he⟩ := h2 c hc
    refine ⟨q, ?_, he⟩
    rw [List.mem_append] at hq ⊢
    tauto

/-! ## Claim C2 -/

/-- Claim C2, counterexample: two sources disagreeing on the name of
the same id produce different graphs depending on which source comes
first — the merge keeps the first-seen name. -/
theorem c2_order_counterexample :
    fromJSONModel [[⟨"X", "a", none, none⟩], [⟨"Y", "a", none, none⟩]] ≠
      fromJSONModel [[⟨"Y", "a", none, none⟩], [⟨"X", "a", none, none⟩]] := by
  decide

/-- Claim C2, amended: the merge is first-wins per field, so for
sources that conflict on a shared id the result depends on source
order; when the sources have pairwise disjoint id sets and every
reference among the merged records resolves, exchanging the two
sources yields the same linked persons up to list order: the graphs
are permutations of each other and every id resolves to the identical
person (the list order itself, and with it the default root
`people[0]`, still follows source order). -/
theorem c2_order_amended (A B : List UPerson)
    (hdis : ∀ p ∈ A, ∀ q ∈ B, p.id ≠ q.id)
    (hnd : noDang (mergePeople A ++ mergePeople B)) :
    ((fromJSONModel [A, B]).people).Perm ((fromJSONModel [B, A]).people) ∧
    ∀ x : String, (fromJSONModel [A, B]).people.find? (fun p => p.id == x) =
      (fromJSONModel [B, A]).people.find? (fun p => p.id == x) := by
  have hmAB : mergePeople (A ++ B) = mergePeople A ++ mergePeople B :=
    mergePeople_append_disjoint A B (fun q hq p hp => hdis p hp q hq)
  have hmBA : mergePeople (B ++ A) = mergePeople B ++ mergePeople A :=
    mergePeople_append_disjoint B A (fun q hq p hp => (hdis q hq p hp).symm)
  have hndBA : noDang (mergePeople B ++ mergePeople A) := noDang_append_comm _ _ hnd
  have hlAB : fromJSONModel [A, B] =
      { people := (mergePeople A ++ mergePeople B).map childDefault, warnings := [] } := by
    unfold fromJSONModel
    rw [show ([A, B] : List (List UPerson)).flatten = A ++ B by simp, hmAB]
    exact linkPeople_noDang _ hnd
  have hlBA : fromJSONModel [B, A] =
      { people := (mergePeople B ++ mergePeople A).map childDefault, warnings := [] } := by
    unfold fromJSONModel
    rw [show ([B, A] : List (List UPerson)).flatten = B ++ A by simp, hmBA]
    exact linkPeople_noDang _ hndBA
  constructor
  · rw [hlAB, hlBA]
    simp only [List.map_append]
    exact List.perm_append_comm
  · intro x
    rw [hlAB, hlBA]
    simp only [List.map_append]
    rw [List.find?_append, List.find?_append]
    have hfound : ∀ (L : List UPerson) (m : UPerson),
        ((mergePeople L).map childDefault).find? (fun p => p.id == x) = some m →
        ∃ p ∈ L, p.id = x := by
      intro L m hm
      have hmem := List.mem_of_find?_eq_some hm
      have hpx := List.find?_some hm
      simp only [beq_iff_eq] at hpx
      obtain ⟨m', hm', he⟩ := List.mem_map.mp hmem
      obtain ⟨p, hp, he'⟩ := mergePeople_ids L m' hm'
      refine ⟨p, hp, ?_⟩
      have hmm : m.id = m'.id := (congrArg (fun z => z.id) he).symm
      rw [← he', ← hmm, hpx]
    cases hfa : ((mergePeople A).map childDefault).find? (fun p => p.id == x) with
    | none =>
        cases hfb : ((mergePeople B).map childDefault).find? (fun p => p.id == x) with
        | none => rfl
        | some m => rfl
    | some m =>
        cases hfb : ((mergePeople B).map childDefault).find? (fun p => p.id == x) with
        | none => rfl
        | some m' =>
            exfalso
            obtain ⟨p, hp, hpx⟩ := hfound A m hfa
            obtain ⟨q, hq, hqx⟩ := hfound B m' hfb
            exact hdis p hp q hq (hpx.trans hqx.symm)

/-- Witness for C2: two one-record sources that reference each other
merge and link to the same pair of persons in either order. -/
theorem c2_order_witness :
    ((fromJSONModel [[⟨"na", "a", some "b", none⟩], [⟨"nb", "b", some "a", none⟩]]).people).Perm
      ((fromJSONModel [[⟨"nb", "b", some "a", none⟩], [⟨"na", "a", some "b", none⟩]]).people) :=
  (c2_order_amended [⟨"na", "a", some "b", none⟩] [⟨"nb", "b", some "a", none⟩]
    (by decide) (by unfold noDang; decide)).1

end FamilyTree
